import Mathlib

/-!
Verification of the cue-point engine of the video-metadata-ai-toolkit
repository.

The development shallowly embeds, over exact rational arithmetic:

* `smart_ad_breaks/cue_point_generator.py`:
  `_calculate_optimal_cue_points` and `determine_video_cue_points`;
* `video_metadata_toolkit/video_analysis.py`:
  the segment construction of `FfmpegVideoAnalyzer.detect_shot_changes`,
  its parsing of the ffmpeg diagnostic text, and the request/response
  handling of `CloudVideoAnalyzer.detect_shot_changes`.

Python `float` values are modelled as `ℚ` (the claims are about exact
arithmetic); lists are Lean lists; strings are `List Char`.
-/

namespace VideoToolkit

/-- `VideoSegment` from `video_analysis.py`: a dataclass with
`start_time` and `end_time` float fields. -/
structure VideoSegment where
  start_time : ℚ
  end_time : ℚ
deriving DecidableEq, Repr

/-! ## `_calculate_optimal_cue_points` (cue_point_generator.py, lines 19-48)

The Python function sorts the candidates (`sorted`, modelled by the stable
`List.insertionSort`), then runs one pass appending `cue_point` to
`cue_points` whenever `cue_point >= minimum_time_for_first_cue_point` and
(`cue_points` is empty or
`cue_point - minimum_time_between_cue_points >= cue_points[-1]`).
The loop body is `cue_point_step`; the fold over the sorted list is the
whole function. -/

/-- One iteration of the loop in `_calculate_optimal_cue_points`. -/
def cue_point_step (minimum_time_for_first_cue_point : ℚ)
    (minimum_time_between_cue_points : ℚ)
    (cue_points : List ℚ) (cue_point : ℚ) : List ℚ :=
  let is_at_or_after_min_time : Bool :=
    decide (minimum_time_for_first_cue_point ≤ cue_point)
  let is_long_enough_after_prev_cue_point : Bool :=
    match cue_points.getLast? with
    | none => true
    | some prev => decide (prev ≤ cue_point - minimum_time_between_cue_points)
  if is_at_or_after_min_time && is_long_enough_after_prev_cue_point then
    cue_points ++ [cue_point]
  else
    cue_points

/-- `_calculate_optimal_cue_points` from `cue_point_generator.py`. -/
def calculate_optimal_cue_points (potential_cue_points : List ℚ)
    (minimum_time_for_first_cue_point : ℚ := 0)
    (minimum_time_between_cue_points : ℚ := 30) : List ℚ :=
  (potential_cue_points.insertionSort (· ≤ ·)).foldl
    (cue_point_step minimum_time_for_first_cue_point
      minimum_time_between_cue_points) []

/-! ## Candidate derivation in `determine_video_cue_points` (lines 50-90)

The Python loop over `enumerate(video_segments)` produces, for every
segment except the last, `segment.end_time +
(video_segments[i+1].start_time - segment.end_time) / 2`, and for the
last segment its `end_time`; `potential_cue_points` starts as `[0.0]`.
The indexed loop is rendered as structural recursion on the list. -/

/-- The per-segment candidates of the loop in `determine_video_cue_points`:
for each segment with a successor, the midpoint between its end and the
successor's start; for the last segment, its end time. -/
def midpoint_cue_points : List VideoSegment → List ℚ
  | [] => []
  | [segment] => [segment.end_time]
  | segment :: next :: rest =>
      (segment.end_time + (next.start_time - segment.end_time) / 2)
        :: midpoint_cue_points (next :: rest)

/-- The full `potential_cue_points` list built by
`determine_video_cue_points`: `0.0` followed by the loop's output. -/
def potential_cue_points_of (video_segments : List VideoSegment) : List ℚ :=
  0 :: midpoint_cue_points video_segments

/-- `determine_video_cue_points` from `cue_point_generator.py`, with the
analyzer call abstracted by the segment list it returns (the
`FakeVideoAnalyzer` seam used by the repository's own tests). -/
def determine_video_cue_points (video_segments : List VideoSegment)
    (minimum_time_for_first_cue_point : ℚ := 0)
    (minimum_time_between_cue_points : ℚ := 30) : List ℚ :=
  calculate_optimal_cue_points (potential_cue_points_of video_segments)
    minimum_time_for_first_cue_point minimum_time_between_cue_points

/-! ## `FfmpegVideoAnalyzer.detect_shot_changes`: segment construction
(video_analysis.py, lines 183-194)

After parsing, the code prepends `video_start_time` to the surviving
timestamps and emits, for each boundary, a segment from it to the next
boundary minus `seconds_per_frame` (or to `video_duration` for the last
boundary); with zero surviving timestamps it returns a single segment
`(0.0, video_duration)`. -/

/-- The boundary loop of `FfmpegVideoAnalyzer.detect_shot_changes`:
`end_pts` is the next boundary minus `seconds_per_frame`, except for the
last boundary, whose end is `video_duration`. -/
def segments_of_boundaries (seconds_per_frame video_duration : ℚ) :
    List ℚ → List VideoSegment
  | [] => []
  | [b] => [⟨b, video_duration⟩]
  | b :: b2 :: rest =>
      ⟨b, b2 - seconds_per_frame⟩
        :: segments_of_boundaries seconds_per_frame video_duration (b2 :: rest)

/-- Lines 183-194 of `video_analysis.py`: the `VideoSegment` list built
from the surviving shot-change timestamps. -/
def build_video_segments (video_start_time video_duration
    seconds_per_frame : ℚ) (shot_change_timestamps : List ℚ) :
    List VideoSegment :=
  match shot_change_timestamps with
  | [] => [⟨0, video_duration⟩]
  | t :: ts =>
      segments_of_boundaries seconds_per_frame video_duration
        (video_start_time :: t :: ts)

/-! ## `CloudVideoAnalyzer.detect_shot_changes` (video_analysis.py,
lines 72-101)

The method always submits
`request={"features": [SHOT_CHANGE_DETECTION], "input_uri": video}` to
`annotate_video`; `volume_threshold` appears in the signature and is never
read. The operation's result is reduced to its shot-change list (the code
reads `result.annotation_results[0].shot_annotations`), and each entry is
converted by summing whole seconds with `microseconds / 1e6`. -/

/-- The feature enumeration value used by the cloud analyzer. -/
inductive VideoFeature where
  | SHOT_CHANGE_DETECTION
deriving DecidableEq, Repr

/-- A protobuf-style time offset with whole seconds and a fractional
`microseconds` representation. -/
structure TimeOffset where
  seconds : ℚ
  microseconds : ℚ
deriving DecidableEq, Repr

/-- One shot-change entry of the remote response. -/
structure CloudShotChange where
  start_time_offset : TimeOffset
  end_time_offset : TimeOffset
deriving DecidableEq, Repr

/-- The request payload passed to `annotate_video`. -/
structure CloudRequest where
  features : List VideoFeature
  input_uri : String
deriving DecidableEq, Repr

/-- `CloudVideoAnalyzer.detect_shot_changes`, modelled as the pair of the
request it submits and the segments converted from a given remote
response. The `volume_threshold` parameter of the Python signature is
never read by the method body. -/
def cloud_detect_shot_changes (video : String)
    (volume_threshold : Option ℚ)
    (shot_changes : List CloudShotChange) :
    CloudRequest × List VideoSegment :=
  (⟨[VideoFeature.SHOT_CHANGE_DETECTION], video⟩,
    shot_changes.map fun sc =>
      ⟨sc.start_time_offset.seconds
          + sc.start_time_offset.microseconds / 1000000,
        sc.end_time_offset.seconds
          + sc.end_time_offset.microseconds / 1000000⟩)

/-! ## `FfmpegVideoAnalyzer.detect_shot_changes`: diagnostic-text parsing
(video_analysis.py, lines 166-182)

The decoded ffmpeg output is filtered with
`re.findall(r"silence_start:([\s\S]*?)silence_end", ...)` (a left-to-right
non-overlapping scan; the lazy group captures up to the nearest
`silence_end`), the captured sections are joined with `"\n"`, and
timestamps are extracted from the joined text with
`re.findall(r"Parsed_showinfo.+pts_time:([^\s]+)", ...)` (`.`, which does
not match a newline, is greedy, so the engine matches `pts_time:` at the
last possible spot of a line; `[^\s]+` then captures greedily). Both
scans are modelled character-exactly on `List Char`; the recursions carry
a fuel argument, instantiated with the text length, which each step
strictly exceeds the consumed input. -/

/-- ASCII range of Python's `\s` class. -/
def isPySpace (c : Char) : Bool :=
  c = ' ' || c = '\t' || c = '\n' || c = '\r' || c = '\x0b' || c = '\x0c'

/-- The literal `silence_start:` of the first pattern. -/
def silence_start_marker : List Char := "silence_start:".toList

/-- The literal `silence_end` of the first pattern. -/
def silence_end_marker : List Char := "silence_end".toList

/-- The literal `Parsed_showinfo` of the second pattern. -/
def showinfo_marker : List Char := "Parsed_showinfo".toList

/-- The literal `pts_time:` of the second pattern. -/
def pts_time_marker : List Char := "pts_time:".toList

/-- Split a string at the leftmost occurrence of `pat`: `some (pre, post)`
with the input equal to `pre ++ pat ++ post` and no occurrence of `pat`
starting inside `pre`; `none` when `pat` does not occur. -/
def splitAtFirst (pat : List Char) : List Char → Option (List Char × List Char)
  | [] => none
  | c :: rest =>
    if pat.isPrefixOf (c :: rest) then some ([], (c :: rest).drop pat.length)
    else
      match splitAtFirst pat rest with
      | some (pre, post) => some (c :: pre, post)
      | none => none

/-- The first `re.findall`: repeatedly capture the lazy text between a
`silence_start:` occurrence and the nearest following `silence_end`, and
continue after the consumed match. -/
def silent_sections : ℕ → List Char → List (List Char)
  | 0, _ => []
  | fuel + 1, s =>
    match splitAtFirst silence_start_marker s with
    | none => []
    | some (_, rest1) =>
      match splitAtFirst silence_end_marker rest1 with
      | none => []
      | some (cap, rest2) => cap :: silent_sections fuel rest2

/-- `"\n".join`: concatenate with a single newline between entries. -/
def join_newline : List (List Char) → List Char
  | [] => []
  | [x] => x
  | x :: y :: rest => x ++ '\n' :: join_newline (y :: rest)

/-- `"\n".join(silent_output_sections)` of the Python code. -/
def silent_output (s : List Char) : List Char :=
  join_newline (silent_sections s.length s)

/-- Backtracking of the greedy `.+` of the second pattern: try the
candidate lengths `J, J-1, ..., 1` for `.+` and return the first (longest)
that is followed by `pts_time:` and at least one non-whitespace character;
the capture is the maximal non-whitespace run. Returns the capture and
the remainder of the text after the whole match. -/
def try_pts_match (t : List Char) : ℕ → Option (List Char × List Char)
  | 0 => none
  | j + 1 =>
    if pts_time_marker.isPrefixOf (t.drop (j + 1)) then
      let after_marker := t.drop (j + 1 + pts_time_marker.length)
      let v := after_marker.takeWhile (fun c => !(isPySpace c))
      if v.isEmpty then try_pts_match t j
      else some (v, after_marker.drop v.length)
    else try_pts_match t j

/-- One match attempt of `Parsed_showinfo.+pts_time:([^\s]+)` anchored at
the start of `s`: the literal marker, then a greedy newline-free `.+`,
then `pts_time:` and a greedy non-empty non-whitespace capture. -/
def match_showinfo_here (s : List Char) : Option (List Char × List Char) :=
  if showinfo_marker.isPrefixOf s then
    let t := s.drop showinfo_marker.length
    try_pts_match t ((t.takeWhile (fun c => c ≠ '\n')).length)
  else none

/-- The second `re.findall`: scan left to right for the leftmost match,
emit its capture, and continue after the match. -/
def showinfo_findall : ℕ → List Char → List (List Char)
  | 0, _ => []
  | fuel + 1, s =>
    match match_showinfo_here s with
    | some (v, rest) => v :: showinfo_findall fuel rest
    | none =>
      match s with
      | [] => []
      | _ :: rest => showinfo_findall fuel rest

/-- Lines 166-182 of `video_analysis.py`: the timestamp strings that
survive the silence filtering (the code then applies `float` to each). -/
def kept_timestamp_strings (s : List Char) : List (List Char) :=
  showinfo_findall ((silent_output s).length + 1) (silent_output s)

/-! ## The full local-analyzer pipeline (video_analysis.py, lines 115-194)

`ffmpeg.probe` supplies the stream's `start_time`, `duration` and
`nb_frames`; the combined scene/silence filter run is abstracted by an
oracle from the effective silence threshold to the decoded diagnostic
text (the only way the threshold enters the result), and Python `float`
parsing of a timestamp string by a conversion oracle. -/

/-- The probed stream fields used by the method. -/
structure ProbeInfo where
  start_time : ℚ
  duration : ℚ
  nb_frames : ℕ
deriving DecidableEq, Repr

/-- `volume_threshold or 1_000.0`: Python's `or` takes the right operand
exactly when the left is falsy, i.e. `None` or `0.0`. -/
def effective_volume_threshold (volume_threshold : Option ℚ) : ℚ :=
  match volume_threshold with
  | none => 1000
  | some v => if v = 0 then 1000 else v

/-- `FfmpegVideoAnalyzer.detect_shot_changes`: probe, run the filter
graph at the effective threshold, parse the surviving timestamps, and
build the segments. -/
def ffmpeg_detect_shot_changes (probe : ProbeInfo)
    (run_filter : ℚ → List Char) (parse_float : List Char → ℚ)
    (volume_threshold : Option ℚ) : List VideoSegment :=
  let seconds_per_frame := probe.duration / (probe.nb_frames : ℚ)
  let ffmpeg_output := run_filter (effective_volume_threshold volume_threshold)
  let shot_change_timestamps :=
    (kept_timestamp_strings ffmpeg_output).map parse_float
  build_video_segments probe.start_time probe.duration seconds_per_frame
    shot_change_timestamps

/-! ## Specification predicates for the parsing claim

`occursAtIdx pat s i` states that `pat` occurs in `s` at index `i`;
`SilentInterval s a b` states that the index range `[a, b)` lies between
some `silence_start:` occurrence and the next following `silence_end`;
`ShowinfoMatchText t v` states that `t` is a text matching
`Parsed_showinfo.+pts_time:([^\s]+)` with capture `v`, and
`ShowinfoMatchAt s i n v` that such a text of length `n` occurs in `s` at
index `i`. -/

/-- `pat` occurs in `s` starting at index `i`. -/
@[reducible]
def occursAtIdx (pat s : List Char) (i : ℕ) : Prop := pat <+: s.drop i

/-- `q` is the first index at or after `j` where `silence_end` occurs. -/
def firstSilenceEndFrom (s : List Char) (j q : ℕ) : Prop :=
  j ≤ q ∧ occursAtIdx silence_end_marker s q ∧
    ∀ r < q, j ≤ r → ¬ occursAtIdx silence_end_marker s r

/-- The index range `[a, b)` of `s` lies after some `silence_start:`
occurrence and before the next following `silence_end`. -/
def SilentInterval (s : List Char) (a b : ℕ) : Prop :=
  ∃ p q, occursAtIdx silence_start_marker s p ∧
    firstSilenceEndFrom s (p + silence_start_marker.length) q ∧
    p + silence_start_marker.length ≤ a ∧ b ≤ q

/-- `t` is a text matched by `Parsed_showinfo.+pts_time:([^\s]+)` with
captured value `v`. -/
def ShowinfoMatchText (t v : List Char) : Prop :=
  ∃ mid, t = showinfo_marker ++ mid ++ pts_time_marker ++ v ∧
    mid ≠ [] ∧ (∀ c ∈ mid, c ≠ '\n') ∧
    v ≠ [] ∧ (∀ c ∈ v, isPySpace c = false)

/-- A text of length `n` matching the showinfo pattern with capture `v`
occurs in `s` at index `i`. -/
def ShowinfoMatchAt (s : List Char) (i n : ℕ) (v : List Char) : Prop :=
  ∃ t, t.length = n ∧ ShowinfoMatchText t v ∧ t <+: s.drop i

/-- `sec` is the captured text of one silence window of `s`: the text
from the end of a `silence_start:` occurrence up to the next following
`silence_end`. -/
def SectionWindow (s sec : List Char) : Prop :=
  ∃ p q, occursAtIdx silence_start_marker s p ∧
    firstSilenceEndFrom s (p + silence_start_marker.length) q ∧
    sec = (s.drop (p + silence_start_marker.length)).take
      (q - (p + silence_start_marker.length))

/-! ## Properties of the selection loop -/

/-- The step either appends the candidate or leaves the accumulator. -/
lemma cue_point_step_cases (mf mb : ℚ) (acc : List ℚ) (c : ℚ) :
    cue_point_step mf mb acc c = acc ++ [c] ∨ cue_point_step mf mb acc c = acc := by
  simp only [cue_point_step]
  split
  · exact Or.inl rfl
  · exact Or.inr rfl

/-- The step appends exactly when the candidate clears the first-cue bound
and the spacing bound against the last accepted cue point. -/
lemma cue_point_step_accept (mf mb : ℚ) (acc : List ℚ) (c : ℚ)
    (h1 : mf ≤ c) (h2 : ∀ prev, acc.getLast? = some prev → prev ≤ c - mb) :
    cue_point_step mf mb acc c = acc ++ [c] := by
  unfold cue_point_step
  rcases hL : acc.getLast? with _ | prev
  · simp [hL, h1]
  · simp [hL, h1, h2 prev hL]

/-- If the step appended the candidate, the two guards held. -/
lemma cue_point_step_accept_inv (mf mb : ℚ) (acc : List ℚ) (c : ℚ)
    (h : cue_point_step mf mb acc c = acc ++ [c]) :
    mf ≤ c ∧ ∀ prev, acc.getLast? = some prev → prev ≤ c - mb := by
  by_cases h1 : mf ≤ c
  · refine ⟨h1, fun prev hL => ?_⟩
    by_cases h2 : prev ≤ c - mb
    · exact h2
    · exfalso
      have : cue_point_step mf mb acc c = acc := by
        unfold cue_point_step
        simp [hL, h2]
      rw [this] at h
      exact absurd (congrArg List.length h) (by simp)
  · exfalso
    have : cue_point_step mf mb acc c = acc := by
      unfold cue_point_step
      simp [h1]
    rw [this] at h
    exact absurd (congrArg List.length h) (by simp)

/-- Invariant of the fold inside `_calculate_optimal_cue_points`: starting
from an accumulator that is sorted, spaced, past the first-cue bound, and
entirely below the (sorted) remaining input, the fold preserves all three
output properties. -/
lemma foldl_cue_point_step_invariant (mf mb : ℚ) :
    ∀ (l acc : List ℚ), l.Sorted (· ≤ ·) →
      acc.Sorted (· ≤ ·) →
      acc.Chain' (fun a b => a ≤ b - mb) →
      (∀ x ∈ acc, mf ≤ x) →
      (∀ a ∈ acc, ∀ x ∈ l, a ≤ x) →
      (l.foldl (cue_point_step mf mb) acc).Sorted (· ≤ ·) ∧
        (l.foldl (cue_point_step mf mb) acc).Chain' (fun a b => a ≤ b - mb) ∧
        ∀ x ∈ l.foldl (cue_point_step mf mb) acc, mf ≤ x := by
  intro l
  induction l with
  | nil =>
    intro acc _ hs hc hm _
    exact ⟨hs, hc, hm⟩
  | cons c l ih =>
    intro acc hl hs hc hm hcross
    have hl' : l.Sorted (· ≤ ·) := (List.sorted_cons.mp hl).2
    have hcl : ∀ x ∈ l, c ≤ x := (List.sorted_cons.mp hl).1
    rw [List.foldl_cons]
    rcases cue_point_step_cases mf mb acc c with hstep | hstep
    · obtain ⟨h1, h2⟩ := cue_point_step_accept_inv mf mb acc c hstep
      rw [hstep]
      apply ih
      · exact hl'
      · refine List.pairwise_append.mpr ⟨hs, List.sorted_singleton c,
          fun a ha b hb => ?_⟩
        rw [List.mem_singleton] at hb
        exact hb ▸ hcross a ha c (List.mem_cons_self c l)
      · rw [List.chain'_append]
        refine ⟨hc, List.chain'_singleton c, fun x hx y hy => ?_⟩
        simp only [List.head?_cons, Option.mem_def, Option.some.injEq] at hy
        exact hy ▸ h2 x hx
      · intro x hx
        rcases List.mem_append.mp hx with hx | hx
        · exact hm x hx
        · rw [List.mem_singleton] at hx
          exact hx ▸ h1
      · intro a ha x hx
        rcases List.mem_append.mp ha with ha | ha
        · exact hcross a ha x (List.mem_cons_of_mem c hx)
        · rw [List.mem_singleton] at ha
          exact ha ▸ hcl x hx
    · rw [hstep]
      exact ih acc hl' hs hc hm
        (fun a ha x hx => hcross a ha x (List.mem_cons_of_mem c hx))

/-- C1: for every input list of candidates (in any order) and every pair of
parameters, `_calculate_optimal_cue_points` returns a list that is sorted
non-decreasing, whose every element is at least
`minimum_time_for_first_cue_point`, and whose consecutive elements differ
by at least `minimum_time_between_cue_points` (exact arithmetic). -/
theorem C1_optimal_cue_points_invariants (potential_cue_points : List ℚ)
    (minimum_time_for_first_cue_point minimum_time_between_cue_points : ℚ) :
    (calculate_optimal_cue_points potential_cue_points
        minimum_time_for_first_cue_point minimum_time_between_cue_points).Sorted (· ≤ ·) ∧
      (∀ x ∈ calculate_optimal_cue_points potential_cue_points
          minimum_time_for_first_cue_point minimum_time_between_cue_points,
        minimum_time_for_first_cue_point ≤ x) ∧
      (calculate_optimal_cue_points potential_cue_points
          minimum_time_for_first_cue_point minimum_time_between_cue_points).Chain'
        (fun a b => a + minimum_time_between_cue_points ≤ b) := by
  have h := foldl_cue_point_step_invariant minimum_time_for_first_cue_point
    minimum_time_between_cue_points
    (potential_cue_points.insertionSort (· ≤ ·)) []
    (List.sorted_insertionSort (· ≤ ·) potential_cue_points)
    (List.sorted_nil) (List.chain'_nil) (by simp) (by simp)
  refine ⟨h.1, h.2.2, List.Chain'.imp ?_ h.2.1⟩
  intro a b hab
  linarith

/-- C2: with an analyzer returning exactly the segments
`[(0,12.1),(12.3,12.5),(12.7,60.1),(60.3,60.8),(65.3,65.8)]`,
`determine_video_cue_points` returns `[0.0, 60.2]` under the defaults
(first = 0.0, between = 30.0), `[12.2, 60.2]` when
`minimum_time_for_first_cue_point = 10.0`, and `[0.0, 12.2, 60.2, 65.8]`
when `minimum_time_between_cue_points = 5.0`. -/
theorem C2_determine_video_cue_points_examples :
    determine_video_cue_points
        [⟨0, 12.1⟩, ⟨12.3, 12.5⟩, ⟨12.7, 60.1⟩, ⟨60.3, 60.8⟩, ⟨65.3, 65.8⟩]
        0 30 = [0, 60.2] ∧
      determine_video_cue_points
        [⟨0, 12.1⟩, ⟨12.3, 12.5⟩, ⟨12.7, 60.1⟩, ⟨60.3, 60.8⟩, ⟨65.3, 65.8⟩]
        10 30 = [12.2, 60.2] ∧
      determine_video_cue_points
        [⟨0, 12.1⟩, ⟨12.3, 12.5⟩, ⟨12.7, 60.1⟩, ⟨60.3, 60.8⟩, ⟨65.3, 65.8⟩]
        0 5 = [0, 12.2, 60.2, 65.8] := by
  refine ⟨?_, ?_, ?_⟩ <;>
    norm_num [determine_video_cue_points, calculate_optimal_cue_points,
      potential_cue_points_of, midpoint_cue_points, cue_point_step,
      List.insertionSort, List.orderedInsert]

/-- Each fold step appends at most one element at the tail, so the fold
output is a subsequence of `acc ++ l`. -/
lemma foldl_cue_point_step_sublist (mf mb : ℚ) :
    ∀ (l acc : List ℚ),
      List.Sublist (l.foldl (cue_point_step mf mb) acc) (acc ++ l) := by
  intro l
  induction l with
  | nil =>
    intro acc
    simp
  | cons c l ih =>
    intro acc
    rw [List.foldl_cons]
    rcases cue_point_step_cases mf mb acc c with hstep | hstep <;> rw [hstep]
    · simpa [List.append_assoc] using ih (acc ++ [c])
    · exact (ih acc).trans
        ((List.Sublist.cons c (List.Sublist.refl l)).append_left acc)

/-- C9: the selection only filters the sorted candidates: its output is a
subsequence of the sorted input (same relative order), and every returned
cue point is an element of the input list. -/
theorem C9_selection_is_subsequence (potential_cue_points : List ℚ)
    (minimum_time_for_first_cue_point minimum_time_between_cue_points : ℚ) :
    List.Sublist
      (calculate_optimal_cue_points potential_cue_points
        minimum_time_for_first_cue_point minimum_time_between_cue_points)
      (potential_cue_points.insertionSort (· ≤ ·)) ∧
    ∀ x ∈ calculate_optimal_cue_points potential_cue_points
        minimum_time_for_first_cue_point minimum_time_between_cue_points,
      x ∈ potential_cue_points := by
  have h := foldl_cue_point_step_sublist minimum_time_for_first_cue_point
    minimum_time_between_cue_points
    (potential_cue_points.insertionSort (· ≤ ·)) []
  rw [List.nil_append] at h
  exact ⟨h, fun x hx =>
    (List.perm_insertionSort (· ≤ ·) potential_cue_points).subset
      (h.subset hx)⟩

/-- On an input that already satisfies all three selection constraints
(every element clears the first-cue bound, consecutive elements are spaced,
and the accumulator's last element is spaced below the input's head), the
fold accepts every element. -/
lemma foldl_cue_point_step_of_valid (mf mb : ℚ) :
    ∀ (l acc : List ℚ),
      (∀ x ∈ l, mf ≤ x) →
      l.Chain' (fun a b => a ≤ b - mb) →
      (∀ prev, acc.getLast? = some prev →
        ∀ c, l.head? = some c → prev ≤ c - mb) →
      l.foldl (cue_point_step mf mb) acc = acc ++ l := by
  intro l
  induction l with
  | nil =>
    intro acc _ _ _
    simp
  | cons c l ih =>
    intro acc hmf hchain hlink
    rw [List.foldl_cons,
      cue_point_step_accept mf mb acc c (hmf c (List.mem_cons_self c l))
        (fun prev hL => hlink prev hL c rfl)]
    rw [ih (acc ++ [c]) (fun x hx => hmf x (List.mem_cons_of_mem c hx))
      hchain.tail ?_]
    · simp
    · intro prev hL d hd
      rw [List.getLast?_concat] at hL
      obtain rfl : c = prev := by injection hL
      exact (List.chain'_cons'.mp hchain).1 d hd

/-- C7: selection is idempotent: applying `_calculate_optimal_cue_points`
to its own output with the same parameters returns that output
unchanged. -/
theorem C7_selection_idempotent (potential_cue_points : List ℚ)
    (minimum_time_for_first_cue_point minimum_time_between_cue_points : ℚ) :
    calculate_optimal_cue_points
        (calculate_optimal_cue_points potential_cue_points
          minimum_time_for_first_cue_point minimum_time_between_cue_points)
        minimum_time_for_first_cue_point minimum_time_between_cue_points
      = calculate_optimal_cue_points potential_cue_points
          minimum_time_for_first_cue_point minimum_time_between_cue_points := by
  have h := foldl_cue_point_step_invariant minimum_time_for_first_cue_point
    minimum_time_between_cue_points
    (potential_cue_points.insertionSort (· ≤ ·)) []
    (List.sorted_insertionSort (· ≤ ·) potential_cue_points)
    List.sorted_nil List.chain'_nil (by simp) (by simp)
  have h1 : (calculate_optimal_cue_points potential_cue_points
      minimum_time_for_first_cue_point
      minimum_time_between_cue_points).Sorted (· ≤ ·) := h.1
  have h2 : (calculate_optimal_cue_points potential_cue_points
      minimum_time_for_first_cue_point
      minimum_time_between_cue_points).Chain'
        (fun a b => a ≤ b - minimum_time_between_cue_points) := h.2.1
  have h3 : ∀ x ∈ calculate_optimal_cue_points potential_cue_points
      minimum_time_for_first_cue_point minimum_time_between_cue_points,
      minimum_time_for_first_cue_point ≤ x := h.2.2
  show ((calculate_optimal_cue_points potential_cue_points
      minimum_time_for_first_cue_point
      minimum_time_between_cue_points).insertionSort (· ≤ ·)).foldl
        (cue_point_step minimum_time_for_first_cue_point
          minimum_time_between_cue_points) []
    = calculate_optimal_cue_points potential_cue_points
        minimum_time_for_first_cue_point minimum_time_between_cue_points
  rw [List.Sorted.insertionSort_eq h1]
  rw [foldl_cue_point_step_of_valid minimum_time_for_first_cue_point
    minimum_time_between_cue_points _ [] h3 h2 (by simp),
    List.nil_append]

/-! ## Shape of the candidate list (claim C4) -/

/-- The loop of `determine_video_cue_points` produces one candidate per
segment. -/
lemma midpoint_cue_points_length :
    ∀ segs : List VideoSegment,
      (midpoint_cue_points segs).length = segs.length
  | [] => rfl
  | [_] => rfl
  | _ :: next :: rest => by
    simp [midpoint_cue_points, midpoint_cue_points_length (next :: rest)]

/-- The loop's candidates, written as in the spec: for each adjacent pair
of segments the midpoint of the inter-segment gap, then the last
segment's end time. -/
lemma midpoint_cue_points_eq (segs : List VideoSegment) (h : segs ≠ []) :
    midpoint_cue_points segs =
      (segs.zip segs.tail).map
          (fun p => p.1.end_time + (p.2.start_time - p.1.end_time) / 2)
        ++ [(segs.getLast h).end_time] := by
  induction segs with
  | nil => exact absurd rfl h
  | cons s rest ih =>
    cases rest with
    | nil => simp [midpoint_cue_points]
    | cons t rest' =>
      rw [midpoint_cue_points, ih (List.cons_ne_nil t rest')]
      simp [List.getLast_cons]

/-- Ascending chain property of the loop's candidates, for an ascending,
non-overlapping segment list with `0 ≤ start_time < end_time`; the head is
also nonnegative. -/
lemma midpoint_cue_points_chain (segs : List VideoSegment)
    (hchain : segs.Chain' (fun a b => a.end_time ≤ b.start_time))
    (hseg : ∀ sg ∈ segs, 0 ≤ sg.start_time ∧ sg.start_time < sg.end_time) :
    (midpoint_cue_points segs).Chain' (· ≤ ·) ∧
      ∀ x ∈ (midpoint_cue_points segs).head?, 0 ≤ x := by
  induction segs with
  | nil => simp [midpoint_cue_points]
  | cons s rest ih =>
    cases rest with
    | nil =>
      obtain ⟨hs0, hs1⟩ := hseg s (List.mem_cons_self s [])
      simp only [midpoint_cue_points, List.chain'_singleton, true_and,
        List.head?_cons, Option.mem_def, Option.some.injEq]
      intro x hx
      rw [← hx]
      linarith
    | cons t rest' =>
      obtain ⟨ihc, _⟩ := ih hchain.tail
        (fun sg hsg => hseg sg (List.mem_cons_of_mem s hsg))
      obtain ⟨hs0, hs1⟩ := hseg s (List.mem_cons_self s (t :: rest'))
      obtain ⟨ht0, ht1⟩ := hseg t
        (List.mem_cons_of_mem s (List.mem_cons_self t rest'))
      have hst : s.end_time ≤ t.start_time := (List.chain'_cons'.mp hchain).1
        t (by simp)
      constructor
      · rw [midpoint_cue_points]
        refine List.chain'_cons'.mpr ⟨?_, ihc⟩
        intro y hy
        cases rest' with
        | nil =>
          simp only [midpoint_cue_points, List.head?_cons, Option.mem_def,
            Option.some.injEq] at hy
          rw [← hy]
          linarith
        | cons u rest'' =>
          have htu : t.end_time ≤ u.start_time :=
            (List.chain'_cons'.mp hchain.tail).1 u (by simp)
          simp only [midpoint_cue_points, List.head?_cons, Option.mem_def,
            Option.some.injEq] at hy
          rw [← hy]
          linarith
      · rw [midpoint_cue_points]
        intro x hx
        simp only [List.head?_cons, Option.mem_def, Option.some.injEq] at hx
        rw [← hx]
        linarith

/-- C4: for every ascending, non-overlapping segment list of length N with
`0 ≤ start_time < end_time` per segment, the candidate list built by
`determine_video_cue_points` is `0.0`, then the midpoint of each adjacent
inter-segment gap, then the last segment's end time; it has exactly N + 1
entries and is ascending as built. -/
theorem C4_candidate_list_shape (segs : List VideoSegment)
    (hne : segs ≠ [])
    (hchain : segs.Chain' (fun a b => a.end_time ≤ b.start_time))
    (hseg : ∀ sg ∈ segs, 0 ≤ sg.start_time ∧ sg.start_time < sg.end_time) :
    potential_cue_points_of segs =
        0 :: ((segs.zip segs.tail).map
            (fun p => p.1.end_time + (p.2.start_time - p.1.end_time) / 2)
          ++ [(segs.getLast hne).end_time]) ∧
      (potential_cue_points_of segs).length = segs.length + 1 ∧
      (potential_cue_points_of segs).Sorted (· ≤ ·) := by
  obtain ⟨hc, hh⟩ := midpoint_cue_points_chain segs hchain hseg
  refine ⟨?_, ?_, ?_⟩
  · rw [potential_cue_points_of, midpoint_cue_points_eq segs hne]
  · rw [potential_cue_points_of, List.length_cons,
      midpoint_cue_points_length segs]
  · rw [potential_cue_points_of]
    rw [List.Sorted, ← List.chain'_iff_pairwise]
    exact List.chain'_cons'.mpr ⟨hh, hc⟩

/-- Witness for C4 at the concrete segment list `[(0,10),(12,20)]`. -/
theorem C4_candidate_list_shape_witness :
    potential_cue_points_of [⟨0, 10⟩, ⟨12, 20⟩] =
        0 :: ((([⟨0, 10⟩, ⟨12, 20⟩] : List VideoSegment).zip
              ([⟨0, 10⟩, ⟨12, 20⟩] : List VideoSegment).tail).map
            (fun p => p.1.end_time + (p.2.start_time - p.1.end_time) / 2)
          ++ [(([⟨0, 10⟩, ⟨12, 20⟩] : List VideoSegment).getLast
              (List.cons_ne_nil _ _)).end_time]) ∧
      (potential_cue_points_of [⟨0, 10⟩, ⟨12, 20⟩]).length =
        ([⟨0, 10⟩, ⟨12, 20⟩] : List VideoSegment).length + 1 ∧
      (potential_cue_points_of [⟨0, 10⟩, ⟨12, 20⟩]).Sorted (· ≤ ·) :=
  C4_candidate_list_shape [⟨0, 10⟩, ⟨12, 20⟩] (List.cons_ne_nil _ _)
    (by constructor <;> norm_num)
    (by
      intro sg hsg
      simp only [List.mem_cons, List.not_mem_nil, or_false] at hsg
      rcases hsg with h | h <;> subst h <;> norm_num)

/-- Unfolding of the boundary loop along a `zip` with the successor list:
each boundary is paired with its successor, and the last boundary closes
at `video_duration`. -/
lemma segments_of_boundaries_eq (f d : ℚ) :
    ∀ (bs : List ℚ) (h : bs ≠ []),
      segments_of_boundaries f d bs =
        (bs.zip bs.tail).map (fun p => ⟨p.1, p.2 - f⟩)
          ++ [⟨bs.getLast h, d⟩]
  | [], h => absurd rfl h
  | [b], _ => by simp [segments_of_boundaries]
  | b :: b2 :: rest, _ => by
    rw [segments_of_boundaries,
      segments_of_boundaries_eq f d (b2 :: rest) (List.cons_ne_nil b2 rest)]
    simp [List.getLast_cons]

/-- C5: in the local analyzer, stream start time `s`, duration `d`,
`seconds_per_frame` `f`, and a non-empty ascending surviving timestamp
list `[t1, ..., tk]` produce exactly the segments
`[(s, t1 - f), (t1, t2 - f), ..., (t(k-1), tk - f), (tk, d)]`: every
boundary starts a segment ending at the next boundary minus `f`, except
the last, which ends at `d`. -/
theorem C5_ffmpeg_segment_construction (s d f : ℚ) (ts : List ℚ)
    (hne : ts ≠ []) (hsorted : ts.Sorted (· ≤ ·)) :
    build_video_segments s d f ts =
      ((s :: ts).zip ts).map (fun p => ⟨p.1, p.2 - f⟩)
        ++ [⟨ts.getLast hne, d⟩] := by
  obtain ⟨t, ts', rfl⟩ := List.exists_cons_of_ne_nil hne
  rw [build_video_segments,
    segments_of_boundaries_eq f d (s :: t :: ts') (List.cons_ne_nil _ _)]
  simp [List.getLast_cons]

/-- Witness for C5: one surviving cut `t = 2` with `s = 0`, `d = 10`,
`f = 1/4` yields exactly two segments split at `t - f`. -/
theorem C5_ffmpeg_segment_construction_witness :
    build_video_segments 0 10 (1/4) [2] =
      (((0 : ℚ) :: [2]).zip [2]).map
          (fun p => ⟨p.1, p.2 - (1/4 : ℚ)⟩)
        ++ [⟨([2] : List ℚ).getLast (List.cons_ne_nil _ _), 10⟩] :=
  C5_ffmpeg_segment_construction 0 10 (1/4) [2] (List.cons_ne_nil _ _)
    (List.sorted_singleton 2)

/-- C8: the request submitted by the cloud analyzer and, for a fixed
remote response, its returned segment list are independent of
`volume_threshold`. -/
theorem C8_cloud_independent_of_volume_threshold (video : String)
    (threshold1 threshold2 : Option ℚ)
    (shot_changes : List CloudShotChange) :
    (cloud_detect_shot_changes video threshold1 shot_changes).1 =
        (cloud_detect_shot_changes video threshold2 shot_changes).1 ∧
      (cloud_detect_shot_changes video threshold1 shot_changes).2 =
        (cloud_detect_shot_changes video threshold2 shot_changes).2 :=
  ⟨rfl, rfl⟩

/-- Counterexample to C3: the claim quantifies over every analyzer
variant, but the cloud variant converts one segment per shot-change entry
of the remote response, so a response with zero entries yields the empty
list rather than one full-duration segment. -/
theorem C3_counterexample_cloud_returns_empty :
    (cloud_detect_shot_changes "gs://bucket/video" none []).2 = [] := rfl

/-- C3 amended: the local (ffmpeg) analyzer never returns an empty list
and returns exactly one segment `(0.0, duration)` when zero shot changes
survive; the cloud analyzer instead returns one segment per shot-change
entry of the remote response (hence an empty list exactly for an empty
response). -/
theorem C3_amended_nonempty_for_ffmpeg (s d f : ℚ) (ts : List ℚ)
    (video : String) (threshold : Option ℚ)
    (shot_changes : List CloudShotChange) :
    build_video_segments s d f ts ≠ [] ∧
      build_video_segments s d f [] = [⟨0, d⟩] ∧
      (cloud_detect_shot_changes video threshold shot_changes).2.length =
        shot_changes.length := by
  refine ⟨?_, rfl, by simp [cloud_detect_shot_changes]⟩
  cases ts with
  | nil => simp [build_video_segments]
  | cons t ts' => simp [build_video_segments, segments_of_boundaries]

/-- C10: a caller-supplied `volume_threshold` of exactly `0.0` is falsy
for Python's `or`, so the local analyzer replaces it with the
maximally-inclusive `1000.0` dB, exactly as for `None`; the two calls
behave identically for every probe result, filter-graph behavior and
float conversion. -/
theorem C10_zero_threshold_equals_none (probe : ProbeInfo)
    (run_filter : ℚ → List Char) (parse_float : List Char → ℚ) :
    effective_volume_threshold (some 0) = 1000 ∧
      effective_volume_threshold none = 1000 ∧
      ffmpeg_detect_shot_changes probe run_filter parse_float (some 0) =
        ffmpeg_detect_shot_changes probe run_filter parse_float none := by
  refine ⟨by simp [effective_volume_threshold], rfl, ?_⟩
  simp [ffmpeg_detect_shot_changes, effective_volume_threshold]

/-! ## Correctness of `splitAtFirst` -/

/-- A successful split decomposes the input around the pattern. -/
lemma splitAtFirst_eq (pat : List Char) :
    ∀ (s pre post : List Char),
      splitAtFirst pat s = some (pre, post) → s = pre ++ pat ++ post := by
  intro s
  induction s with
  | nil =>
    intro pre post h
    simp [splitAtFirst] at h
  | cons c rest ih =>
    intro pre post h
    rw [splitAtFirst] at h
    by_cases hp : pat.isPrefixOf (c :: rest)
    · rw [if_pos hp] at h
      obtain ⟨rfl, rfl⟩ := Prod.mk.injEq .. ▸ Option.some.injEq .. ▸ h
      have hpre := List.isPrefixOf_iff_prefix.mp hp
      rw [List.nil_append]
      exact ( List.prefix_iff_eq_append.mp hpre).symm
    · rw [if_neg hp] at h
      cases hs : splitAtFirst pat rest with
      | none => rw [hs] at h; cases h
      | some pp =>
        obtain ⟨pre', post'⟩ := pp
        rw [hs] at h
        obtain ⟨rfl, rfl⟩ := Prod.mk.injEq .. ▸ Option.some.injEq .. ▸ h
        exact congrArg (fun l => c :: l) (ih pre' post' hs)

/-- No occurrence of the pattern starts inside the `pre` part of a
successful split. -/
lemma splitAtFirst_leftmost (pat : List Char) :
    ∀ (s pre post : List Char), splitAtFirst pat s = some (pre, post) →
      ∀ i, i < pre.length → ¬ pat <+: s.drop i := by
  intro s
  induction s with
  | nil =>
    intro pre post h
    simp [splitAtFirst] at h
  | cons c rest ih =>
    intro pre post h
    rw [splitAtFirst] at h
    by_cases hp : pat.isPrefixOf (c :: rest)
    · rw [if_pos hp] at h
      obtain ⟨rfl, rfl⟩ := Prod.mk.injEq .. ▸ Option.some.injEq .. ▸ h
      intro i hi
      cases hi
    · rw [if_neg hp] at h
      cases hs : splitAtFirst pat rest with
      | none => rw [hs] at h; cases h
      | some pp =>
        obtain ⟨pre', post'⟩ := pp
        rw [hs] at h
        obtain ⟨rfl, rfl⟩ := Prod.mk.injEq .. ▸ Option.some.injEq .. ▸ h
        intro i hi
        cases i with
        | zero =>
          rw [List.drop_zero]
          exact fun hcon => hp (List.isPrefixOf_iff_prefix.mpr hcon)
        | succ i' =>
          rw [List.drop_succ_cons]
          exact ih pre' post' hs i'
            (by simpa using Nat.lt_of_succ_lt_succ (by simpa using hi))

/-- A failed split means the pattern occurs nowhere. -/
lemma splitAtFirst_none (pat : List Char) (hne : pat ≠ []) :
    ∀ s, splitAtFirst pat s = none → ∀ i, ¬ pat <+: s.drop i := by
  intro s
  induction s with
  | nil =>
    intro _ i hcon
    rw [List.drop_nil] at hcon
    exact hne (List.prefix_nil.mp hcon)
  | cons c rest ih =>
    intro h i
    rw [splitAtFirst] at h
    by_cases hp : pat.isPrefixOf (c :: rest)
    · rw [if_pos hp] at h
      cases h
    · rw [if_neg hp] at h
      cases hs : splitAtFirst pat rest with
      | some pp => rw [hs] at h; cases h
      | none =>
        cases i with
        | zero =>
          rw [List.drop_zero]
          exact fun hcon => hp (List.isPrefixOf_iff_prefix.mpr hcon)
        | succ i' =>
          rw [List.drop_succ_cons]
          exact ih hs i'

/-! ## Occurrence bookkeeping -/

/-- An occurrence in a suffix is an occurrence in the whole string. -/
lemma occursAtIdx_of_drop (pat s : List Char) (k i : ℕ)
    (h : occursAtIdx pat (s.drop k) i) : occursAtIdx pat s (k + i) := by
  rw [occursAtIdx] at h ⊢
  rw [List.drop_drop] at h
  exact h

/-- Conversely, an occurrence at an index past `k` is an occurrence in
the suffix from `k`. -/
lemma occursAtIdx_drop_of (pat s : List Char) (k i : ℕ) (hk : k ≤ i)
    (h : occursAtIdx pat s i) : occursAtIdx pat (s.drop k) (i - k) := by
  rw [occursAtIdx] at h ⊢
  rw [List.drop_drop]
  have heq : k + (i - k) = i := by omega
  rw [heq]
  exact h

/-- First-`silence_end` positions transfer from a suffix to the whole
string. -/
lemma firstSilenceEndFrom_of_drop (s : List Char) (k j q : ℕ)
    (h : firstSilenceEndFrom (s.drop k) j q) :
    firstSilenceEndFrom s (k + j) (k + q) := by
  obtain ⟨hjq, hocc, hfirst⟩ := h
  refine ⟨Nat.add_le_add_left hjq k, occursAtIdx_of_drop _ _ _ _ hocc, ?_⟩
  intro r hr hjr hcon
  have hkr : k ≤ r := le_trans (Nat.le_add_right k j) hjr
  have := occursAtIdx_drop_of _ _ k r hkr hcon
  exact hfirst (r - k)
    (by omega) (by omega) this

/-- Silence windows transfer from a suffix to the whole string. -/
lemma sectionWindow_of_drop (s sec : List Char) (k : ℕ)
    (h : SectionWindow (s.drop k) sec) : SectionWindow s sec := by
  obtain ⟨p, q, hocc, hfirst, hsec⟩ := h
  refine ⟨k + p, k + q, occursAtIdx_of_drop _ _ _ _ hocc, ?_, ?_⟩
  · have := firstSilenceEndFrom_of_drop s k
      (p + silence_start_marker.length) q hfirst
    rwa [← Nat.add_assoc] at this
  · rw [hsec, List.drop_drop]
    have h3 : k + p + silence_start_marker.length =
        k + (p + silence_start_marker.length) := by omega
    rw [h3]
    have h2 : k + q - (k + (p + silence_start_marker.length)) =
        q - (p + silence_start_marker.length) := by omega
    rw [h2]

/-- Every captured section of the first scan is the text of one silence
window of `s`: it sits between a `silence_start:` occurrence and the
next following `silence_end`. -/
lemma silent_sections_window :
    ∀ (fuel : ℕ) (s : List Char), s.length ≤ fuel →
      ∀ sec ∈ silent_sections fuel s, SectionWindow s sec := by
  intro fuel
  induction fuel with
  | zero =>
    intro s _ sec hsec
    simp [silent_sections] at hsec
  | succ fuel ih =>
    intro s hlen sec hsec
    rw [silent_sections] at hsec
    cases h1 : splitAtFirst silence_start_marker s with
    | none =>
      rw [h1] at hsec
      simp at hsec
    | some pr1 =>
      obtain ⟨pre1, rest1⟩ := pr1
      rw [h1] at hsec
      dsimp only at hsec
      cases h2 : splitAtFirst silence_end_marker rest1 with
      | none =>
        rw [h2] at hsec
        simp at hsec
      | some pr2 =>
        obtain ⟨cap, rest2⟩ := pr2
        rw [h2] at hsec
        simp only [List.mem_cons] at hsec
        have he1 : s = pre1 ++ silence_start_marker ++ rest1 :=
          splitAtFirst_eq _ s pre1 rest1 h1
        have he2 : rest1 = cap ++ silence_end_marker ++ rest2 :=
          splitAtFirst_eq _ rest1 cap rest2 h2
        have hrest1 : rest1 =
            s.drop (pre1.length + silence_start_marker.length) := by
          rw [he1, ← List.length_append pre1 silence_start_marker,
            List.drop_left]
        have hoccs : occursAtIdx silence_start_marker s pre1.length := by
          rw [occursAtIdx]
          have hd : s.drop pre1.length = silence_start_marker ++ rest1 := by
            rw [he1, List.append_assoc, List.drop_left]
          rw [hd]
          exact ( List.prefix_append silence_start_marker rest1)
        have hocce : occursAtIdx silence_end_marker s
            (pre1.length + silence_start_marker.length + cap.length) := by
          rw [occursAtIdx]
          have hd : s.drop (pre1.length + silence_start_marker.length
              + cap.length) = silence_end_marker ++ rest2 := by
            rw [← List.drop_drop, ← hrest1, he2, List.append_assoc,
              List.drop_left]
          rw [hd]
          exact ( List.prefix_append silence_end_marker rest2)
        have hfirst : firstSilenceEndFrom s
            (pre1.length + silence_start_marker.length)
            (pre1.length + silence_start_marker.length + cap.length) := by
          refine ⟨Nat.le_add_right _ _, hocce, ?_⟩
          intro r hr har hcon
          have hsub := occursAtIdx_drop_of silence_end_marker s
            (pre1.length + silence_start_marker.length) r har hcon
          rw [← hrest1] at hsub
          exact splitAtFirst_leftmost _ rest1 cap rest2 h2
            (r - (pre1.length + silence_start_marker.length))
            (by
              have hc : cap.length + silence_end_marker.length
                  + rest2.length = rest1.length := by
                rw [he2]
                simp [List.length_append]
                omega
              omega) hsub
        have hcap : cap =
            (s.drop (pre1.length + silence_start_marker.length)).take
              ((pre1.length + silence_start_marker.length + cap.length)
                - (pre1.length + silence_start_marker.length)) := by
          have h3 : pre1.length + silence_start_marker.length + cap.length
              - (pre1.length + silence_start_marker.length) = cap.length := by
            omega
          rw [h3, ← hrest1, he2, List.append_assoc, List.take_left]
        rcases hsec with hceq | hsec
        · rw [hceq]
          exact ⟨pre1.length,
            pre1.length + silence_start_marker.length + cap.length,
            hoccs, hfirst, hcap⟩
        · have hd : rest1.drop (cap.length + silence_end_marker.length)
              = rest2 := by
            rw [he2, ← List.length_append cap silence_end_marker,
              List.drop_left]
          have hrest2 : rest2 = s.drop (pre1.length
              + silence_start_marker.length + cap.length
              + silence_end_marker.length) := by
            rw [← hd, hrest1, List.drop_drop]
            have harith : pre1.length + silence_start_marker.length
                + (cap.length + silence_end_marker.length)
                = pre1.length + silence_start_marker.length + cap.length
                  + silence_end_marker.length := by
              omega
            rw [harith]
          have hlen2 : rest2.length ≤ fuel := by
            have l1 := congrArg List.length he1
            have l2 := congrArg List.length he2
            simp only [List.length_append] at l1 l2
            have hm : silence_start_marker.length = 14 := by decide
            omega
          have hwin := ih rest2 hlen2 sec hsec
          rw [hrest2] at hwin
          exact sectionWindow_of_drop s sec _ hwin

/-- A prefix of a suffix is an infix occurrence. -/
lemma infix_of_prefix_drop (t x : List Char) (i : ℕ) (h : t <+: x.drop i) :
    t <:+: x := by
  obtain ⟨w, hw⟩ := h
  exact ⟨x.take i, w, by rw [List.append_assoc, hw, List.take_append_drop]⟩

/-- An infix occurrence is a prefix of some suffix. -/
lemma exists_drop_of_infix (t x : List Char) (h : t <:+: x) :
    ∃ i, t <+: x.drop i := by
  obtain ⟨u, w, hw⟩ := h
  refine ⟨u.length, ?_⟩
  rw [← hw, List.append_assoc, List.drop_left]
  exact List.prefix_append t w

/-- An infix of `a ++ c :: b` avoiding the character `c` lies inside `a`
or inside `b`. -/
lemma infix_append_cons_split (t a b : List Char) (c : Char)
    (hc : ∀ c' ∈ t, c' ≠ c) (h : t <:+: a ++ c :: b) :
    t <:+: a ∨ t <:+: b := by
  obtain ⟨i, hpre⟩ := exists_drop_of_infix t _ h
  by_cases hi : i ≤ a.length
  · rw [List.drop_append_of_le_length hi] at hpre
    by_cases hlen : t.length ≤ (a.drop i).length
    · left
      have heq := ( List.prefix_iff_eq_take.mp hpre)
      rw [List.take_append_of_le_length hlen] at heq
      have htake : t <+: a.drop i := by
        rw [heq]
        exact ( List.take_prefix t.length (a.drop i))
      exact infix_of_prefix_drop t a i htake
    · exfalso
      have heq := ( List.prefix_iff_eq_take.mp hpre)
      have hlen' : t.length = (a.drop i).length
          + (t.length - (a.drop i).length) := by omega
      rw [hlen', List.take_append] at heq
      obtain ⟨m', hm'⟩ : ∃ m', t.length - (a.drop i).length = m' + 1 :=
        ⟨t.length - (a.drop i).length - 1, by omega⟩
      rw [hm', List.take_succ_cons] at heq
      have hmem : c ∈ t := by
        rw [heq]
        exact List.mem_append_right _ (List.mem_cons_self c _)
      exact hc c hmem rfl
  · right
    push_neg at hi
    have hi' : a.length + (i - a.length) = i := by omega
    rw [← hi', List.drop_append] at hpre
    obtain ⟨k, hk⟩ : ∃ k, i - a.length = k + 1 := ⟨i - a.length - 1, by omega⟩
    rw [hk, List.drop_succ_cons] at hpre
    exact infix_of_prefix_drop t b k hpre

/-- A newline-free infix of a newline join lies inside one of the joined
entries. -/
lemma infix_join_newline :
    ∀ (L : List (List Char)) (t : List Char),
      (∀ c ∈ t, c ≠ '\n') → t ≠ [] → t <:+: join_newline L →
      ∃ sec ∈ L, t <:+: sec := by
  intro L
  induction L with
  | nil =>
    intro t _ hne h
    rw [join_newline] at h
    obtain ⟨u, w, hw⟩ := h
    have h1 := congrArg List.length hw
    simp only [List.length_append, List.length_nil] at h1
    exact absurd (List.length_eq_zero.mp (by omega)) hne
  | cons x rest ih =>
    cases rest with
    | nil =>
      intro t _ _ h
      rw [join_newline] at h
      exact ⟨x, List.mem_singleton_self x, h⟩
    | cons y rest' =>
      intro t hc hne h
      rw [join_newline] at h
      rcases infix_append_cons_split t x (join_newline (y :: rest')) '\n'
          hc h with h1 | h2
      · exact ⟨x, List.mem_cons_self x (y :: rest'), h1⟩
      · obtain ⟨sec, hsec, hinf⟩ := ih t hc hne h2
        exact ⟨sec, List.mem_cons_of_mem x hsec, hinf⟩

/-- An infix of a silence-window capture occurs in the original string at
an index whose span is a silent interval. -/
lemma sectionWindow_infix (s sec t : List Char) (hw : SectionWindow s sec)
    (ht : t <:+: sec) :
    ∃ i, t <+: s.drop i ∧ SilentInterval s i (i + t.length) := by
  obtain ⟨p, q, hocc, hfirst, hsec⟩ := hw
  obtain ⟨u, w, huw⟩ := ht
  refine ⟨p + silence_start_marker.length + u.length, ?_, ?_⟩
  · rw [← List.drop_drop]
    have hsplit : s.drop (p + silence_start_marker.length) =
        sec ++ (s.drop (p + silence_start_marker.length)).drop
          (q - (p + silence_start_marker.length)) := by
      conv_lhs =>
        rw [← List.take_append_drop (q - (p + silence_start_marker.length))
          (s.drop (p + silence_start_marker.length))]
      rw [← hsec]
    rw [hsplit, ← huw, List.append_assoc u t w, List.append_assoc,
      List.drop_left, List.append_assoc]
    exact List.prefix_append t _
  · refine ⟨p, q, hocc, hfirst, Nat.le_add_right _ _, ?_⟩
    have hlsec : sec.length ≤ q - (p + silence_start_marker.length) := by
      rw [hsec]
      exact List.length_take_le _ _
    have hl2 := congrArg List.length huw
    simp only [List.length_append] at hl2
    have haq : p + silence_start_marker.length ≤ q := hfirst.1
    omega

/-- Characters of `t.take n` satisfy `p` when `n` does not exceed the
`takeWhile p` run of `t`. -/
lemma take_takeWhile_subset (t : List Char) (p : Char → Bool) (n : ℕ)
    (hn : n ≤ (t.takeWhile p).length) :
    ∀ c ∈ t.take n, p c = true := by
  intro c hc
  have hsplit : t = t.takeWhile p ++ t.dropWhile p :=
    (List.takeWhile_append_dropWhile p t).symm
  rw [hsplit, List.take_append_of_le_length hn] at hc
  exact List.mem_takeWhile_imp (List.take_subset n _ hc)

/-- A successful backtracking step yields a valid `.+` length `j`:
positive, inside the newline-free run, followed by `pts_time:` and a
non-empty non-whitespace capture. -/
lemma try_pts_match_sound (t : List Char) :
    ∀ (J : ℕ) (v rest : List Char),
      J ≤ (t.takeWhile (fun c => c ≠ '\n')).length →
      try_pts_match t J = some (v, rest) →
      ∃ j, 0 < j ∧ j ≤ (t.takeWhile (fun c => c ≠ '\n')).length ∧
        pts_time_marker <+: t.drop j ∧
        v ≠ [] ∧ (∀ c ∈ v, isPySpace c = false) ∧
        v <+: t.drop (j + pts_time_marker.length) := by
  intro J
  induction J with
  | zero =>
    intro v rest _ h
    simp [try_pts_match] at h
  | succ j ih =>
    intro v rest hJ h
    rw [try_pts_match] at h
    by_cases hp : pts_time_marker.isPrefixOf (t.drop (j + 1))
    · rw [if_pos hp] at h
      dsimp only at h
      by_cases hv : ((t.drop (j + 1 + pts_time_marker.length)).takeWhile
          (fun c => !(isPySpace c))).isEmpty
      · rw [if_pos hv] at h
        exact ih v rest (le_trans (Nat.le_succ j) hJ) h
      · rw [if_neg hv] at h
        obtain ⟨rfl, rfl⟩ := Prod.mk.injEq .. ▸ Option.some.injEq .. ▸ h
        refine ⟨j + 1, Nat.succ_pos j, hJ,
          List.isPrefixOf_iff_prefix.mp hp, ?_, ?_, ?_⟩
        · intro hcon
          rw [hcon] at hv
          simp at hv
        · intro c hcmem
          have hw := List.mem_takeWhile_imp hcmem
          simpa using hw
        · exact ( List.takeWhile_prefix _)
    · rw [if_neg hp] at h
      exact ih v rest (le_trans (Nat.le_succ j) hJ) h

/-- The remainder returned by the backtracking step is a suffix of its
input. -/
lemma try_pts_match_rest (t : List Char) :
    ∀ (J : ℕ) (v rest : List Char), try_pts_match t J = some (v, rest) →
      ∃ m, rest = t.drop m := by
  intro J
  induction J with
  | zero =>
    intro v rest h
    simp [try_pts_match] at h
  | succ j ih =>
    intro v rest h
    rw [try_pts_match] at h
    by_cases hp : pts_time_marker.isPrefixOf (t.drop (j + 1))
    · rw [if_pos hp] at h
      dsimp only at h
      by_cases hv : ((t.drop (j + 1 + pts_time_marker.length)).takeWhile
          (fun c => !(isPySpace c))).isEmpty
      · rw [if_pos hv] at h
        exact ih v rest h
      · rw [if_neg hv] at h
        obtain ⟨rfl, rfl⟩ := Prod.mk.injEq .. ▸ Option.some.injEq .. ▸ h
        refine ⟨j + 1 + pts_time_marker.length
          + ((t.drop (j + 1 + pts_time_marker.length)).takeWhile
              (fun c => !(isPySpace c))).length, ?_⟩
        rw [List.drop_drop]
    · rw [if_neg hp] at h
      exact ih v rest h

/-- A successful anchored match yields a matching text that is a prefix
of the input, and a remainder that is a strictly shorter suffix. -/
lemma match_showinfo_here_sound (s v rest : List Char)
    (h : match_showinfo_here s = some (v, rest)) :
    (∃ t, ShowinfoMatchText t v ∧ t <+: s) ∧
      ∃ m, 0 < m ∧ rest = s.drop m := by
  rw [match_showinfo_here] at h
  by_cases hp : showinfo_marker.isPrefixOf s
  · rw [if_pos hp] at h
    dsimp only at h
    obtain ⟨j, hj0, hjrun, hjp, hvne, hvsp, hvpre⟩ :=
      try_pts_match_sound (s.drop showinfo_marker.length) _ v rest
        (le_refl _) h
    obtain ⟨m0, hm0⟩ := try_pts_match_rest (s.drop showinfo_marker.length)
      _ v rest h
    have hs : showinfo_marker ++ s.drop showinfo_marker.length = s :=
      ( List.prefix_iff_eq_append.mp (List.isPrefixOf_iff_prefix.mp hp))
    constructor
    · refine ⟨showinfo_marker ++ (s.drop showinfo_marker.length).take j
        ++ pts_time_marker ++ v, ?_, ?_⟩
      · refine ⟨(s.drop showinfo_marker.length).take j, rfl, ?_, ?_,
          hvne, hvsp⟩
        · intro hcon
          rcases ( List.take_eq_nil_iff.mp hcon) with h0 | h0
          · exact absurd h0 (by omega)
          · rw [h0, List.drop_nil] at hjp
            have hnil := ( List.prefix_nil.mp hjp)
            exact absurd hnil (by decide)
        · intro c hc
          have hw := take_takeWhile_subset (s.drop showinfo_marker.length)
            (fun c => decide (c ≠ '\n')) j hjrun c hc
          simpa using hw
      · obtain ⟨r1, hr1⟩ := hjp
        obtain ⟨r2, hr2⟩ := hvpre
        refine ⟨r2, ?_⟩
        conv_rhs => rw [← hs]
        conv_rhs =>
          rw [← List.take_append_drop j (s.drop showinfo_marker.length)]
        rw [← hr1]
        have hd9 : r1 = (s.drop showinfo_marker.length).drop
            (j + pts_time_marker.length) := by
          have hdd := congrArg
            (fun l => List.drop pts_time_marker.length l) hr1
          dsimp at hdd
          rw [List.drop_left] at hdd
          rw [hdd, List.drop_drop]
        rw [hd9, ← hr2]
        simp [List.append_assoc]
    · refine ⟨showinfo_marker.length + m0, by
        have : showinfo_marker.length = 15 := by decide
        omega, ?_⟩
      rw [hm0, List.drop_drop]
  · rw [if_neg hp] at h
    cases h

/-- One-step unfolding of the findall scan at positive fuel. -/
lemma showinfo_findall_succ (fuel : ℕ) (s : List Char) :
    showinfo_findall (fuel + 1) s =
      match match_showinfo_here s with
      | some (v0, rest) => v0 :: showinfo_findall fuel rest
      | none =>
        match s with
        | [] => []
        | _ :: rest => showinfo_findall fuel rest := rfl

/-- Every capture of the findall scan is the capture of a match
occurrence in the scanned string. -/
lemma showinfo_findall_sound :
    ∀ (fuel : ℕ) (u v : List Char), v ∈ showinfo_findall fuel u →
      ∃ t i, ShowinfoMatchText t v ∧ t <+: u.drop i := by
  intro fuel
  induction fuel with
  | zero =>
    intro u v h
    simp [showinfo_findall] at h
  | succ fuel ih =>
    intro u v h
    rw [showinfo_findall_succ] at h
    cases hm : match_showinfo_here u with
    | some pr =>
      obtain ⟨v0, rest⟩ := pr
      rw [hm] at h
      dsimp only at h
      rw [List.mem_cons] at h
      rcases h with rfl | h
      · obtain ⟨⟨t, htext, hpre⟩, _⟩ := match_showinfo_here_sound u v rest hm
        exact ⟨t, 0, htext, by rwa [List.drop_zero]⟩
      · obtain ⟨_, m, _, hrest⟩ := match_showinfo_here_sound u v0 rest hm
        obtain ⟨t, i, htext, hpre⟩ := ih rest v h
        refine ⟨t, m + i, htext, ?_⟩
        rw [hrest] at hpre
        rwa [List.drop_drop] at hpre
    | none =>
      rw [hm] at h
      dsimp only at h
      cases u with
      | nil => simp at h
      | cons c rest =>
        obtain ⟨t, i, htext, hpre⟩ := ih rest v h
        refine ⟨t, i + 1, htext, ?_⟩
        rwa [List.drop_succ_cons]

/-- A showinfo match text is non-empty and newline-free. -/
lemma showinfoMatchText_shape (t v : List Char)
    (h : ShowinfoMatchText t v) : t ≠ [] ∧ ∀ c ∈ t, c ≠ '\n' := by
  obtain ⟨mid, rfl, hmid_ne, hmid, hv_ne, hv⟩ := h
  constructor
  · intro hcon
    have hlcon := congrArg List.length hcon
    simp only [List.length_append, List.length_nil] at hlcon
    have hm : showinfo_marker.length = 15 := by decide
    omega
  · intro c hc
    simp only [List.mem_append] at hc
    have hmarker : ∀ c ∈ showinfo_marker, c ≠ '\n' := by decide
    have hpts : ∀ c ∈ pts_time_marker, c ≠ '\n' := by decide
    rcases hc with ((hc | hc) | hc) | hc
    · exact hmarker c hc
    · exact hmid c hc
    · exact hpts c hc
    · intro hcon
      rw [hcon] at hc
      exact absurd (hv '\n' hc) (by decide)

/-- Counterexample to C6 as stated: the keep/discard rule is not an "if
and only if". In the diagnostic text
`silence_start: Parsed_showinfo x pts_time:1.0 pts_time:2.0 silence_end`
the showinfo text `Parsed_showinfo x pts_time:1.0` occurs (at index 15,
length 30) between the `silence_start:` occurrence and the next following
`silence_end`, yet its value `1.0` is not kept: the greedy `.+` of the
second pattern matches `pts_time:` at the last spot of the line, so only
`2.0` is extracted. -/
theorem C6_counterexample_greedy_scan :
    ¬ (∀ (s v : List Char),
        v ∈ kept_timestamp_strings s ↔
          ∃ i n, ShowinfoMatchAt s i n v ∧ SilentInterval s i (i + n)) := by
  intro hclaim
  have hmem := (hclaim
    "silence_start: Parsed_showinfo x pts_time:1.0 pts_time:2.0 silence_end".toList
    "1.0".toList).mpr
    ⟨15, 30,
      ⟨"Parsed_showinfo x pts_time:1.0".toList, by decide,
        ⟨" x ".toList, by decide, by decide, by decide, by decide,
          by decide⟩,
        by decide⟩,
      ⟨0, 59, by decide, ⟨by decide, by decide, by decide⟩, by decide,
        by decide⟩⟩
  exact absurd hmem (by decide)

/-- C6 amended: a scene-change timestamp is kept only if its
`Parsed_showinfo … pts_time:` match text occurs between some occurrence
of `silence_start:` and the next following `silence_end`; timestamps
outside every such window are discarded. (The converse direction of the
original claim fails: when one line inside a window carries several
`pts_time:` fields, the greedy left-to-right scan keeps only the value it
selects, not every value whose text lies in the window.) -/
theorem C6_amended_kept_only_in_silence (s v : List Char)
    (hkept : v ∈ kept_timestamp_strings s) :
    ∃ i n, ShowinfoMatchAt s i n v ∧ SilentInterval s i (i + n) := by
  rw [kept_timestamp_strings] at hkept
  obtain ⟨t, i0, htext, hpre⟩ := showinfo_findall_sound _ _ v hkept
  obtain ⟨hne, hnl⟩ := showinfoMatchText_shape t v htext
  have hinf : t <:+: silent_output s := infix_of_prefix_drop t _ i0 hpre
  rw [silent_output] at hinf
  obtain ⟨sec, hsec, hinf2⟩ := infix_join_newline _ t hnl hne hinf
  have hw := silent_sections_window s.length s (le_refl _) sec hsec
  obtain ⟨i, hp, hint⟩ := sectionWindow_infix s sec t hw hinf2
  exact ⟨i, t.length, ⟨t, rfl, htext, hp⟩, hint⟩

/-- Witness for the amended C6 at the concrete diagnostic text
`silence_start: Parsed_showinfo a pts_time:3.5 silence_end`: the kept
value `3.5` has its match text inside the silence window. -/
theorem C6_amended_kept_only_in_silence_witness :
    "3.5".toList ∈ kept_timestamp_strings
        "silence_start: Parsed_showinfo a pts_time:3.5 silence_end".toList ∧
      ∃ i n, ShowinfoMatchAt
          "silence_start: Parsed_showinfo a pts_time:3.5 silence_end".toList
          i n "3.5".toList ∧
        SilentInterval
          "silence_start: Parsed_showinfo a pts_time:3.5 silence_end".toList
          i (i + n) :=
  ⟨by decide, C6_amended_kept_only_in_silence
    "silence_start: Parsed_showinfo a pts_time:3.5 silence_end".toList
    "3.5".toList (by decide)⟩

end VideoToolkit
